import Mathlib

set_option maxHeartbeats 1000000

/-!
Verification of the linear-unmixing repository's core against its design
specification.  The Python sources are shallowly embedded over exact
rationals: numpy / xarray arrays become lists or index functions with the
shape kept as metadata, external numerical routines (cvxopt's `qp`,
scipy's `lstsq`) become parameters constrained by their documented
contracts, and floating-point NaN produced by a division by zero is
modelled by `Option.none`.
-/

/- ===================================================================
   Part 1 — src/data/FPData.py : FPRefMatrix
   A raw spectrum is a list of (wavelength, intensity) samples.
   `_bin_spectra` uses `xarray.DataArray.groupby_bins(w, sbins).sum()`,
   whose binning (pandas `cut` with default `right=True`,
   `include_lowest=False`) assigns a sample of wavelength w to bin i
   exactly when edges[i] < w <= edges[i+1]; samples outside every bin
   are dropped.  An empty bin yields a missing value (NaN), which
   `_fill_NaNs` replaces by 0.  `_normalize` then computes
   (v - v.min()) / (v.max() - v.min()) with no degeneracy check; a zero
   denominator silently produces NaN, modelled here as `none`.
   =================================================================== -/

/-- Membership test of a wavelength in bin `i` of the edge list, as
performed by `groupby_bins` (left-open, right-closed intervals). -/
def sampleInBin (edges : List ℚ) (i : ℕ) (w : ℚ) : Bool :=
  decide (edges.getD i 0 < w) && decide (w ≤ edges.getD (i + 1) 0)

/-- `FPRefMatrix._bin_spectra` for one spectrum: per bin, the sum of the
intensities of the samples falling in it, `none` when the bin is empty. -/
def FPRefMatrix.binSpectrum (edges : List ℚ) (s : List (ℚ × ℚ)) : List (Option ℚ) :=
  (List.range (edges.length - 1)).map fun i =>
    match (s.filter fun q => sampleInBin edges i q.1).map Prod.snd with
    | [] => none
    | x :: xs => some ((x :: xs).sum)

/-- `FPRefMatrix._fill_NaNs` (with its default argument 0). -/
def FPRefMatrix.fillNaNs (v : List (Option ℚ)) : List ℚ :=
  v.map fun o => o.getD 0

/-- Minimum of a numpy array given as a nonempty list (`.min()`). -/
def listMin : List ℚ → ℚ
  | [] => 0
  | x :: xs => xs.foldl min x

/-- Maximum of a numpy array given as a nonempty list (`.max()`). -/
def listMax : List ℚ → ℚ
  | [] => 0
  | x :: xs => xs.foldl max x

/-- Floating-point division whose NaN/inf outcome on a zero denominator
is modelled by `none`. -/
def safeDiv (a b : ℚ) : Option ℚ :=
  if b = 0 then none else some (a / b)

/-- `FPRefMatrix._normalize` for one binned vector:
`(v - v.min()) / (v.max() - v.min())`, entrywise; the division is not
guarded, so a constant vector produces NaN (`none`) entries. -/
def FPRefMatrix.normalize (v : List ℚ) : List (Option ℚ) :=
  v.map fun x => safeDiv (x - listMin v) (listMax v - listMin v)

/-- `FPRefMatrix.create` restricted to one spectrum: bin, fill missing
values with 0, then min–max normalize.  This is one column of the
reference matrix. -/
def FPRefMatrix.createColumn (edges : List ℚ) (s : List (ℚ × ℚ)) : List (Option ℚ) :=
  FPRefMatrix.normalize (FPRefMatrix.fillNaNs (FPRefMatrix.binSpectrum edges s))

/-- `FPRefMatrix.create`: the list of columns, one per input spectrum
(`np.stack(..., axis=1)` keeps the input order). -/
def FPRefMatrix.create (edges : List ℚ) (spectra : List (List (ℚ × ℚ))) :
    List (List (Option ℚ)) :=
  spectra.map (FPRefMatrix.createColumn edges)

/-- The binning the specification describes for claim C4, for comparison:
half-open intervals edges[i] <= w < edges[i+1]. -/
def specSampleInBin (edges : List ℚ) (i : ℕ) (w : ℚ) : Bool :=
  decide (edges.getD i 0 ≤ w) && decide (w < edges.getD (i + 1) 0)

/-- Claim C4's reference-matrix column, modelled from the spec's words:
bin by half-open intervals, fill, min–max normalize. -/
def FPRefMatrixSpec.createColumn (edges : List ℚ) (s : List (ℚ × ℚ)) : List (Option ℚ) :=
  FPRefMatrix.normalize (FPRefMatrix.fillNaNs
    ((List.range (edges.length - 1)).map fun i =>
      match (s.filter fun q => specSampleInBin edges i q.1).map Prod.snd with
      | [] => none
      | x :: xs => some ((x :: xs).sum)))

/- ===================================================================
   Part 2 — src/utils/metrics.py
   A numpy array is modelled as a shape (list of dimension sizes)
   together with a total function from multi-indices to rationals;
   values at out-of-range indices are junk and are never observed.
   Elementwise binary operations follow numpy's broadcasting rule:
   shapes are aligned on the right, a pair of dimensions is compatible
   when equal or when one of them is 1, and incompatible shapes raise
   (modelled as `Except.error`).  `np.log10` and `np.sqrt` are
   transcendental, so they are taken as parameters; every statement
   below holds for arbitrary interpretations of them.
   =================================================================== -/

structure NDArray where
  shape : List ℕ
  data : List ℕ → ℚ

inductive MErr where
  | shapeMismatch
deriving DecidableEq

/-- numpy compatibility of one pair of aligned dimensions, giving the
joined dimension: equal dimensions, or one of them is 1. -/
def joinDim (a b : ℕ) : Option ℕ :=
  if a = b then some a else if a = 1 then some b else if b = 1 then some a else none

/-- Broadcast of two shapes given with their axes reversed (so numpy's
right-alignment becomes a left-alignment). -/
def bcastRev : List ℕ → List ℕ → Option (List ℕ)
  | [], t => some t
  | s, [] => some s
  | a :: s, b :: t =>
    match joinDim a b, bcastRev s t with
    | some d, some r => some (d :: r)
    | _, _ => none

/-- numpy broadcast of two shapes, `none` when they are incompatible. -/
def broadcastShape (s t : List ℕ) : Option (List ℕ) :=
  (bcastRev s.reverse t.reverse).map List.reverse

/-- Project a multi-index of a broadcast result onto a source array of
shape `s`: extra leading axes are dropped and axes of size 1 are pinned
to index 0. -/
def srcIndex (s : List ℕ) (idx : List ℕ) : List ℕ :=
  List.zipWith (fun d i => if d = 1 then 0 else i) s (idx.drop (idx.length - s.length))

/-- Elementwise binary operation with numpy broadcasting. -/
def NDArray.ewise (f : ℚ → ℚ → ℚ) (a b : NDArray) : Except MErr NDArray :=
  match broadcastShape a.shape b.shape with
  | none => .error .shapeMismatch
  | some s =>
    .ok ⟨s, fun idx => f (a.data (srcIndex a.shape idx)) (b.data (srcIndex b.shape idx))⟩

/-- Elementwise unary operation (never fails in numpy). -/
def NDArray.amap (f : ℚ → ℚ) (a : NDArray) : NDArray :=
  ⟨a.shape, fun idx => f (a.data idx)⟩

/-- All valid multi-indices of a shape, in row-major order. -/
def indicesOf : List ℕ → List (List ℕ)
  | [] => [[]]
  | d :: ds => (List.range d).flatMap fun i => (indicesOf ds).map (i :: ·)

/-- The list of an array's (valid) entries. -/
def NDArray.cells (a : NDArray) : List ℚ :=
  (indicesOf a.shape).map a.data

/-- `np.sum` over the whole array. -/
def NDArray.asum (a : NDArray) : ℚ := a.cells.sum

/-- `np.size`: the number of entries. -/
def NDArray.size (a : NDArray) : ℕ := a.shape.prod

/-- `np.mean` over the whole array. -/
def NDArray.amean (a : NDArray) : ℚ := a.asum / a.size

/-- `np.max` over the whole (nonempty) array. -/
def NDArray.amax (a : NDArray) : ℚ := listMax a.cells

/-- `np.min` over the whole (nonempty) array. -/
def NDArray.amin (a : NDArray) : ℚ := listMin a.cells

/-- `np.std`: square root of the mean squared deviation, with the square
root as a parameter. -/
def NDArray.astd (sqrtF : ℚ → ℚ) (a : NDArray) : ℚ :=
  sqrtF ((a.amap fun t => (t - a.amean) ^ 2).amean)

/-- A numpy scalar, as a 0-dimensional array. -/
def scalar0 (c : ℚ) : NDArray := ⟨[], fun _ => c⟩

/-- `.sum(keepdims=True)`: an all-ones-shaped array holding the total. -/
def NDArray.sumKeep (a : NDArray) : NDArray :=
  ⟨a.shape.map fun _ => 1, fun _ => a.asum⟩

/-- Sum of squared deviations from the mean; zero exactly for a constant
(or empty) array.  Used to state non-constancy of an array. -/
def NDArray.centeredEnergy (a : NDArray) : ℚ :=
  ((indicesOf a.shape).map fun idx => (a.data idx - a.amean) ^ 2).sum

/-- `PixelWiseMSE(gt, pred) = (gt - pred)**2`. -/
def PixelWiseMSE (gt pred : NDArray) : Except MErr NDArray := do
  let d ← NDArray.ewise (fun x y => x - y) gt pred
  pure (d.amap fun t => t ^ 2)

/-- `PixelWiseMAE(gt, pred) = abs(gt - pred)`. -/
def PixelWiseMAE (gt pred : NDArray) : Except MErr NDArray := do
  let d ← NDArray.ewise (fun x y => x - y) gt pred
  pure (d.amap fun t => |t|)

/-- `PSNR(gt, pred, range_)`; `range_` defaults to `gt.max() - gt.min()`. -/
def PSNR (log10 : ℚ → ℚ) (gt pred : NDArray) (rangeArg : Option ℚ) : Except MErr ℚ := do
  let range_ := match rangeArg with
    | none => gt.amax - gt.amin
    | some r => r
  let mse ← PixelWiseMSE gt pred
  pure (10 * (log10 (range_ ^ 2) - log10 mse.amean))

/-- `fix_range(gt, x)`: center both on their means, compute the scalar
`a = sum(gt_ * x_, keepdims) / sum(x_ * x_, keepdims)`, return `a * x_`. -/
def fix_range (gt x : NDArray) : Except MErr NDArray := do
  let x_ ← NDArray.ewise (fun u v => u - v) x (scalar0 x.amean)
  let gt_ ← NDArray.ewise (fun u v => u - v) gt (scalar0 gt.amean)
  let num ← NDArray.ewise (fun u v => u * v) gt_ x_
  let den ← NDArray.ewise (fun u v => u * v) x_ x_
  let a ← NDArray.ewise (fun u v => u / v) num.sumKeep den.sumKeep
  NDArray.ewise (fun u v => u * v) a x_

/-- `RangeInvariantPSNR(gt, pred)`: standardize `gt`, rescale `pred` with
`fix_range`, and compare with `PSNR` at the standardized range. -/
def RangeInvariantPSNR (log10 sqrtF : ℚ → ℚ) (gt pred : NDArray) : Except MErr ℚ := do
  let stdRange := (gt.amax - gt.amin) / gt.astd sqrtF
  let gtc ← NDArray.ewise (fun u v => u - v) gt (scalar0 gt.amean)
  let stdGt ← NDArray.ewise (fun u v => u / v) gtc (scalar0 (gt.astd sqrtF))
  let scaled ← fix_range stdGt pred
  PSNR log10 stdGt scaled (some stdRange)

/-- Mean-centered array (`x - x.mean()`), as a plain array. -/
def NDArray.center (a : NDArray) : NDArray :=
  ⟨a.shape, fun idx => a.data (srcIndex a.shape idx) - a.amean⟩

/-- The tail of `fix_range` after both centerings. -/
def fix_rangeTail (gt_ x_ : NDArray) : Except MErr NDArray := do
  let num ← NDArray.ewise (fun u v => u * v) gt_ x_
  let den ← NDArray.ewise (fun u v => u * v) x_ x_
  let a ← NDArray.ewise (fun u v => u / v) num.sumKeep den.sumKeep
  NDArray.ewise (fun u v => u * v) a x_

def arr01 : NDArray := ⟨[2], fun idx => if idx = [1] then 1 else 0⟩


def gtC5 : NDArray := ⟨[2, 2], fun _ => 1⟩
def predC5 : NDArray := ⟨[2], fun _ => 2⟩

open scoped Matrix

def resSq {L p : ℕ} (E : Matrix (Fin L) (Fin p) ℚ) (y : Fin L → ℚ) (a : Fin p → ℚ) : ℚ :=
  (E.mulVec a - y) ⬝ᵥ (E.mulVec a - y)

def IsLSMinimizer {L p : ℕ} (E : Matrix (Fin L) (Fin p) ℚ) (y : Fin L → ℚ)
    (a0 : Fin p → ℚ) : Prop :=
  ∀ a, resSq E y a0 ≤ resSq E y a

structure MixedImage where
  bands : ℕ
  spatialDims : List ℕ
  pix : ℕ → ℕ → ℚ

def MixedImage.numPix (img : MixedImage) : ℕ := img.spatialDims.prod

def MixedImage.imgCells (img : MixedImage) : List ℚ :=
  (List.range img.bands).flatMap fun b => (List.range img.numPix).map fun i => img.pix b i

structure RefMatrix where
  bands : ℕ
  p : ℕ
  val : ℕ → ℕ → ℚ

def RefMatrix.M (E : RefMatrix) : Matrix (Fin E.bands) (Fin E.p) ℚ :=
  Matrix.of fun b j => E.val b j

structure AbundanceMap where
  p : ℕ
  spatialDims : List ℕ
  col : ℕ → ℕ → ℚ

inductive UnmixErr where
  | shapeMismatch
  | zeroSizeReduction
deriving DecidableEq

def QPSolver : Type :=
  (p : ℕ) → Matrix (Fin p) (Fin p) ℚ → (Fin p → ℚ) → Matrix (Fin p) (Fin p) ℚ →
    (Fin p → ℚ) → Matrix (Fin 1) (Fin p) ℚ → (Fin 1 → ℚ) → (Fin p → ℚ)

def rowVec {n : ℕ} (y : Fin n → ℚ) : Matrix (Fin 1) (Fin n) ℚ := Matrix.of fun _ b => y b

def negEye (p : ℕ) : Matrix (Fin p) (Fin p) ℚ :=
  Matrix.of fun i j => if i = j then -1 else 0

def zeroVec (p : ℕ) : Fin p → ℚ := fun _ => 0

def onesRow (p : ℕ) : Matrix (Fin 1) (Fin p) ℚ := Matrix.of fun _ _ => 1

def onesVec1 : Fin 1 → ℚ := fun _ => 1

def FCLSU.pixelY (img : MixedImage) (n : ℕ) (i : ℕ) : Fin n → ℚ := fun b => img.pix b i

def FCLSU.rT (E : RefMatrix) (y : Fin E.bands → ℚ) : Matrix (Fin E.p) (Fin 1) ℚ :=
  (-(rowVec y * E.M))ᵀ

def FCLSU.qvec (E : RefMatrix) (y : Fin E.bands → ℚ) : Fin E.p → ℚ :=
  fun j => FCLSU.rT E y j 0

def FCLSU.pixelSol (qp : QPSolver) (E : RefMatrix) (y : Fin E.bands → ℚ) : Fin E.p → ℚ :=
  qp E.p (E.Mᵀ * E.M) (FCLSU.qvec E y) (negEye E.p) (zeroVec E.p) (onesRow E.p) onesVec1

def FCLSU.solve (qp : QPSolver) (img : MixedImage) (E : RefMatrix) :
    Except UnmixErr AbundanceMap :=
  if img.bands = E.bands then
    .ok ⟨E.p, img.spatialDims, fun i j =>
      if h : j < E.p then FCLSU.pixelSol qp E (FCLSU.pixelY img E.bands i) ⟨j, h⟩ else 0⟩
  else .error .shapeMismatch

/-- `LeastSquares._normalize`, the value transform:
`(img - img.min()) / (img.max() - img.min())`, min and max over the
whole image.  On a zero-size image (`bands = 0` or `numPix = 0`) numpy's
`img.min()` raises a zero-size-reduction ValueError; that error path is
modelled by the guard in `LeastSquares.solve` below, so the junk value
`listMin [] = 0` used here is never reached. -/
def LeastSquares.normalize (img : MixedImage) : MixedImage :=
  ⟨img.bands, img.spatialDims, fun b i =>
    (img.pix b i - listMin img.imgCells) / (listMax img.imgCells - listMin img.imgCells)⟩

/-- The numerical core of `scipy.linalg.lstsq`, a parameter. -/
def LSCore : Type :=
  (L p : ℕ) → Matrix (Fin L) (Fin p) ℚ → (Fin L → ℚ) → (Fin p → ℚ)

/-- `LeastSquares.__init__` followed by `LeastSquares.solve`.  On a
zero-size image, `_normalize` in `__init__` raises numpy's
zero-size-reduction ValueError before any solving (`imgCells` is empty
exactly when `bands = 0` or `numPix = 0`).  Otherwise the solver loops
over the (at least one) pixels calling `lstsq(a=E, b=Y[:, i])`, which
validates that `a` and `b` have the same number of rows and raises a
shape-mismatch ValueError otherwise, so a band mismatch fails on the
first iteration. -/
def LeastSquares.solve (core : LSCore) (img₀ : MixedImage) (E : RefMatrix) :
    Except UnmixErr AbundanceMap :=
  if img₀.bands = 0 ∨ img₀.numPix = 0 then .error .zeroSizeReduction
  else
    let img := LeastSquares.normalize img₀
    if img.bands = E.bands then
      .ok ⟨E.p, img.spatialDims, fun i j =>
        if h : j < E.p then core E.bands E.p E.M (fun b => img.pix b i) ⟨j, h⟩ else 0⟩
    else .error .shapeMismatch

def QPApproxFeasible (ε : ℚ) (qp : QPSolver) : Prop :=
  ∀ (p : ℕ), 0 < p → ∀ (Q : Matrix (Fin p) (Fin p) ℚ) (q : Fin p → ℚ),
    (∀ j, ((negEye p).mulVec (qp p Q q (negEye p) (zeroVec p) (onesRow p) onesVec1)) j
        ≤ zeroVec p j + ε) ∧
    (∀ i, |((onesRow p).mulVec (qp p Q q (negEye p) (zeroVec p) (onesRow p) onesVec1)) i
        - onesVec1 i| ≤ ε)

/- ===================================================================
   Concrete inputs used by witness theorems.
   =================================================================== -/

/-- A QP "solver" returning the uniform simplex point, exactly feasible
for the FCLSU constraint set. -/
def uniformQP : QPSolver := fun p _ _ _ _ _ _ => fun _ => (p : ℚ)⁻¹

/-- A QP "solver" returning the zero vector. -/
def zeroQP : QPSolver := fun _ _ _ _ _ _ _ => fun _ => 0

/-- A least-squares core that copies the observation vector; for a 1×1
identity system this is the exact minimizer. -/
def pickCore : LSCore := fun L _ _ y => fun j =>
  if h : (j : ℕ) < L then y ⟨(j : ℕ), h⟩ else 0

def imgW : MixedImage := ⟨3, [1, 1], fun _ _ => 1⟩

def refW : RefMatrix := ⟨3, 2, fun _ _ => 1⟩

def AW1 : AbundanceMap :=
  ⟨refW.p, imgW.spatialDims, fun i j =>
    if h : j < refW.p then
      FCLSU.pixelSol uniformQP refW (FCLSU.pixelY imgW refW.bands i) ⟨j, h⟩
    else 0⟩

def AWzero : AbundanceMap :=
  ⟨refW.p, imgW.spatialDims, fun i j =>
    if h : j < refW.p then
      FCLSU.pixelSol zeroQP refW (FCLSU.pixelY imgW refW.bands i) ⟨j, h⟩
    else 0⟩

def imgW2 : MixedImage := ⟨1, [2, 1], fun _ i => if i = 0 then 0 else 1⟩

def refW2 : RefMatrix := ⟨1, 1, fun _ _ => 1⟩

def AW2 : AbundanceMap :=
  ⟨refW2.p, (LeastSquares.normalize imgW2).spatialDims, fun i j =>
    if h : j < refW2.p then
      pickCore refW2.bands refW2.p refW2.M
        (fun b => (LeastSquares.normalize imgW2).pix (b : ℕ) i) ⟨j, h⟩
    else 0⟩

def img7 : MixedImage := ⟨2, [3], fun _ _ => 1⟩

def ref7 : RefMatrix := ⟨4, 2, fun _ _ => 1⟩

def img9 : MixedImage := ⟨2, [4, 5], fun _ _ => 0⟩

def ref9 : RefMatrix := ⟨2, 3, fun _ _ => 0⟩

/- ===================================================================
   Supporting lemmas for the array model.
   =================================================================== -/
theorem bcastRev_nil_right (s : List ℕ) : bcastRev s [] = some s := by
  cases s <;> rfl

theorem bcastRev_self (s : List ℕ) : bcastRev s s = some s := by
  induction s with
  | nil => rfl
  | cons a t ih => simp [bcastRev, joinDim, ih]

theorem broadcastShape_nil_right (s : List ℕ) : broadcastShape s [] = some s := by
  simp [broadcastShape, bcastRev_nil_right]

theorem broadcastShape_self (s : List ℕ) : broadcastShape s s = some s := by
  simp [broadcastShape, bcastRev_self]

theorem srcIndex_nil (idx : List ℕ) : srcIndex [] idx = [] := rfl

theorem mem_indicesOf {s : List ℕ} {idx : List ℕ} :
    idx ∈ indicesOf s ↔ List.Forall₂ (· < ·) idx s := by
  induction s generalizing idx with
  | nil =>
    simp only [indicesOf, List.mem_singleton]
    constructor
    · rintro rfl; exact List.Forall₂.nil
    · rintro h; cases h; rfl
  | cons d ds ih =>
    simp only [indicesOf, List.mem_flatMap, List.mem_map, List.mem_range]
    constructor
    · rintro ⟨i, hi, j, hj, rfl⟩
      exact List.Forall₂.cons hi (ih.mp hj)
    · rintro (_ | ⟨hi, hj⟩)
      exact ⟨_, hi, _, ih.mpr hj, rfl⟩

theorem srcIndex_self {s idx : List ℕ} (h : List.Forall₂ (· < ·) idx s) :
    srcIndex s idx = idx := by
  have hlen : idx.length = s.length := h.length_eq
  rw [srcIndex, hlen, Nat.sub_self, List.drop_zero]
  induction h with
  | nil => rfl
  | cons hab hl ihl =>
    rename_i a b l₁ l₂
    simp only [List.zipWith_cons_cons]
    have h1 : (if b = 1 then 0 else a) = a := by
      split
      · omega
      · rfl
    rw [h1, ihl hl.length_eq]

theorem indicesOf_length (s : List ℕ) : (indicesOf s).length = s.prod := by
  induction s with
  | nil => rfl
  | cons d ds ih =>
    simp [indicesOf, List.length_flatMap, Function.comp_def, ih, List.map_const',
      List.sum_replicate, smul_eq_mul, Nat.mul_comm]

theorem ewise_scalar_right (f : ℚ → ℚ → ℚ) (a : NDArray) (c : ℚ) :
    NDArray.ewise f a (scalar0 c) =
      .ok ⟨a.shape, fun idx => f (a.data (srcIndex a.shape idx)) c⟩ := by
  simp [NDArray.ewise, scalar0, broadcastShape_nil_right, srcIndex_nil]

theorem ewise_eq_shape (f : ℚ → ℚ → ℚ) (a b : NDArray) (h : b.shape = a.shape) :
    NDArray.ewise f a b =
      .ok ⟨a.shape, fun idx =>
        f (a.data (srcIndex a.shape idx)) (b.data (srcIndex a.shape idx))⟩ := by
  simp [NDArray.ewise, h, broadcastShape_self]

theorem sum_map_mul_left_q {α : Type} (l : List α) (f : α → ℚ) (k : ℚ) :
    (l.map fun i => k * f i).sum = k * (l.map f).sum := by
  induction l with
  | nil => simp
  | cons x xs ih => simp [ih]; ring

theorem sum_map_affine {α : Type} (l : List α) (f : α → ℚ) (k c : ℚ) :
    (l.map fun i => k * f i + c).sum = k * (l.map f).sum + l.length * c := by
  induction l with
  | nil => simp
  | cons x xs ih => simp [ih]; ring

theorem fix_range_eq_tail (gt x : NDArray) :
    fix_range gt x = fix_rangeTail gt.center x.center := by
  unfold fix_range
  simp only [ewise_scalar_right]
  rfl

theorem exc_bind_ok {α β : Type} (a : α) (f : α → Except MErr β) :
    (do let x ← (Except.ok a : Except MErr α); f x) = f a := rfl

theorem exc_bind_error {α β : Type} (e : MErr) (f : α → Except MErr β) :
    (do let x ← (Except.error e : Except MErr α); f x) = Except.error e := rfl

theorem ewise_ok_of_bshape (f : ℚ → ℚ → ℚ) (a b : NDArray) (s : List ℕ)
    (h : broadcastShape a.shape b.shape = some s) :
    NDArray.ewise f a b =
      .ok ⟨s, fun idx => f (a.data (srcIndex a.shape idx)) (b.data (srcIndex b.shape idx))⟩ := by
  simp [NDArray.ewise, h]

theorem ewise_error_of_bshape (f : ℚ → ℚ → ℚ) (a b : NDArray)
    (h : broadcastShape a.shape b.shape = none) :
    NDArray.ewise f a b = .error .shapeMismatch := by
  simp [NDArray.ewise, h]

theorem asum_mk_smul (u : List ℕ) (f : List ℕ → ℚ) (k : ℚ) :
    (⟨u, fun idx => k * f idx⟩ : NDArray).asum = k * (⟨u, f⟩ : NDArray).asum := by
  unfold NDArray.asum NDArray.cells
  exact sum_map_mul_left_q (indicesOf u) f k

theorem scale_div_cancel (k Na Da x : ℚ) (hk : k ≠ 0) :
    (k * Na) / (k * (k * Da)) * (k * x) = Na / Da * x := by
  rcases eq_or_ne Da 0 with h | h
  · simp [h]
  · field_simp
    ring

theorem fix_rangeTail_smul (G X : NDArray) (k : ℚ) (hk : k ≠ 0) :
    fix_rangeTail G ⟨X.shape, fun idx => k * X.data idx⟩ = fix_rangeTail G X := by
  unfold fix_rangeTail
  cases hbs : broadcastShape G.shape X.shape with
  | none =>
    rw [ewise_error_of_bshape (fun u v => u * v) G ⟨X.shape, fun idx => k * X.data idx⟩ hbs,
      ewise_error_of_bshape (fun u v => u * v) G X hbs]
    simp only [exc_bind_error]
  | some u =>
    rw [ewise_ok_of_bshape (fun u v => u * v) G ⟨X.shape, fun idx => k * X.data idx⟩ u hbs,
      ewise_ok_of_bshape (fun u v => u * v) G X u hbs]
    simp only [exc_bind_ok]
    rw [ewise_ok_of_bshape (fun u v => u * v) ⟨X.shape, fun idx => k * X.data idx⟩
        ⟨X.shape, fun idx => k * X.data idx⟩ X.shape (broadcastShape_self X.shape),
      ewise_ok_of_bshape (fun u v => u * v) X X X.shape (broadcastShape_self X.shape)]
    simp only [exc_bind_ok, NDArray.sumKeep]
    cases hbs2 : broadcastShape (u.map fun _ => 1) (X.shape.map fun _ => 1) with
    | none =>
      rw [ewise_error_of_bshape _ _ _ hbs2, ewise_error_of_bshape _ _ _ hbs2]
      simp only [exc_bind_error]
    | some w =>
      rw [ewise_ok_of_bshape _ _ _ w hbs2, ewise_ok_of_bshape _ _ _ w hbs2]
      simp only [exc_bind_ok]
      cases hbs3 : broadcastShape w X.shape with
      | none =>
        rw [ewise_error_of_bshape _ _ _ hbs3, ewise_error_of_bshape _ _ _ hbs3]
      | some v =>
        rw [ewise_ok_of_bshape _ _ _ v hbs3, ewise_ok_of_bshape _ _ _ v hbs3]
        have hN : (⟨u, fun idx =>
              G.data (srcIndex G.shape idx) * (k * X.data (srcIndex X.shape idx))⟩ : NDArray).asum
            = k * (⟨u, fun idx =>
              G.data (srcIndex G.shape idx) * X.data (srcIndex X.shape idx)⟩ : NDArray).asum := by
          have hfun : (fun idx : List ℕ =>
              G.data (srcIndex G.shape idx) * (k * X.data (srcIndex X.shape idx)))
              = fun idx => k * (G.data (srcIndex G.shape idx) * X.data (srcIndex X.shape idx)) := by
            funext idx
            ring
          rw [hfun, asum_mk_smul]
        have hD : (⟨X.shape, fun idx =>
              k * X.data (srcIndex X.shape idx) * (k * X.data (srcIndex X.shape idx))⟩ : NDArray).asum
            = k * (k * (⟨X.shape, fun idx =>
              X.data (srcIndex X.shape idx) * X.data (srcIndex X.shape idx)⟩ : NDArray).asum) := by
          have hfun : (fun idx : List ℕ =>
              k * X.data (srcIndex X.shape idx) * (k * X.data (srcIndex X.shape idx)))
              = fun idx => k * (k * (X.data (srcIndex X.shape idx) * X.data (srcIndex X.shape idx))) := by
            funext idx
            ring
          rw [hfun, asum_mk_smul]
          congr 1
          exact asum_mk_smul X.shape _ k
        congr 1
        refine congrArg (NDArray.mk v) ?_
        funext idx
        simp only
        rw [hN, hD, scale_div_cancel _ _ _ _ hk]

theorem amean_amap_affine (a : NDArray) (k c : ℚ) (hn : (a.size : ℚ) ≠ 0) :
    (a.amap fun t => k * t + c).amean = k * a.amean + c := by
  unfold NDArray.amean NDArray.asum NDArray.cells NDArray.amap NDArray.size at *
  simp only at *
  rw [sum_map_affine (indicesOf a.shape) a.data k c, indicesOf_length, add_div,
    mul_div_assoc, mul_comm ((a.shape.prod : ℚ)) c, mul_div_assoc, div_self hn, mul_one]

theorem center_amap_affine (a : NDArray) (k c : ℚ) (hn : (a.size : ℚ) ≠ 0) :
    (a.amap fun t => k * t + c).center = ⟨a.center.shape, fun idx => k * a.center.data idx⟩ := by
  unfold NDArray.center
  refine congrArg (NDArray.mk _) ?_
  funext idx
  show k * a.data (srcIndex (a.amap fun t => k * t + c).shape idx) + c
      - (a.amap fun t => k * t + c).amean = _
  rw [amean_amap_affine a k c hn]
  simp only [NDArray.amap]
  ring

theorem size_ne_zero_of_centeredEnergy {a : NDArray} (h : a.centeredEnergy ≠ 0) :
    (a.size : ℚ) ≠ 0 := by
  rw [Nat.cast_ne_zero]
  intro hz
  apply h
  unfold NDArray.centeredEnergy
  have hlen : (indicesOf a.shape).length = 0 := by
    rw [indicesOf_length]
    exact hz
  rw [List.length_eq_zero] at hlen
  rw [hlen]
  rfl

theorem fix_range_affine (g pred : NDArray) (k c : ℚ) (hk : k ≠ 0)
    (hn : (pred.size : ℚ) ≠ 0) :
    fix_range g (pred.amap fun t => k * t + c) = fix_range g pred := by
  rw [fix_range_eq_tail, fix_range_eq_tail, center_amap_affine pred k c hn]
  exact fix_rangeTail_smul g.center pred.center k hk

theorem quad_coeff_zero (cq q : ℚ) (hq : 0 ≤ q)
    (h : ∀ t : ℚ, 0 ≤ 2 * t * cq + t ^ 2 * q) : cq = 0 := by
  by_contra hc
  have hD : (0:ℚ) < q + 1 := by linarith
  have hcq : 0 < cq ^ 2 := by positivity
  set w : ℚ := 1 / (q + 1) with hwdef
  have hw : 0 < w := by positivity
  have hwq : q * w ≤ 1 := by
    rw [hwdef, mul_one_div, div_le_one hD]
    linarith
  have hZ : 0 < cq ^ 2 * w := mul_pos hcq hw
  have hZq : cq ^ 2 * w * (q * w) ≤ cq ^ 2 * w * 1 := by
    exact mul_le_mul_of_nonneg_left hwq (le_of_lt hZ)
  have h2 := h (-(cq * w))
  rw [show 2 * (-(cq * w)) * cq + (-(cq * w)) ^ 2 * q
      = cq ^ 2 * w * (q * w) - 2 * (cq ^ 2 * w) from by ring] at h2
  linarith

theorem minimizer_normal_eq {L p : ℕ} (E : Matrix (Fin L) (Fin p) ℚ) (y : Fin L → ℚ)
    (a0 : Fin p → ℚ) (hmin : IsLSMinimizer E y a0) :
    Eᵀ.mulVec (E.mulVec a0 - y) = 0 := by
  funext j
  set r := E.mulVec a0 - y with hr
  set s := E.mulVec ((Pi.single j (1:ℚ) : Fin p → ℚ)) with hs
  have key : ∀ t : ℚ, 0 ≤ 2 * t * (r ⬝ᵥ s) + t ^ 2 * (s ⬝ᵥ s) := by
    intro t
    have h0 := hmin (a0 + t • (Pi.single j (1:ℚ) : Fin p → ℚ))
    rw [resSq, resSq] at h0
    have hE : E.mulVec (a0 + t • (Pi.single j (1:ℚ) : Fin p → ℚ)) - y = r + t • s := by
      rw [Matrix.mulVec_add, Matrix.mulVec_smul, hr, hs]
      abel
    rw [hE] at h0
    have hexp : (r + t • s) ⬝ᵥ (r + t • s)
        = r ⬝ᵥ r + (2 * t * (r ⬝ᵥ s) + t ^ 2 * (s ⬝ᵥ s)) := by
      simp [Matrix.add_dotProduct, Matrix.dotProduct_add, Matrix.smul_dotProduct,
        Matrix.dotProduct_smul, smul_eq_mul, Matrix.dotProduct_comm s r]
      ring
    rw [hexp] at h0
    linarith
  have hsq : 0 ≤ s ⬝ᵥ s := Finset.sum_nonneg fun i _ => mul_self_nonneg (s i)
  have hzero : r ⬝ᵥ s = 0 := quad_coeff_zero _ _ hsq key
  have hfin : r ⬝ᵥ s = Eᵀ.mulVec r j := by
    rw [hs, Matrix.dotProduct_mulVec]
    simp [Matrix.vecMul, Matrix.dotProduct, Matrix.mulVec, Matrix.transpose_apply,
      Pi.single_apply, mul_comm]
  rw [hfin] at hzero
  simpa using hzero

theorem ls_minimizer_closed_form {L p : ℕ} (E : Matrix (Fin L) (Fin p) ℚ)
    (y : Fin L → ℚ) (a0 : Fin p → ℚ) (hmin : IsLSMinimizer E y a0)
    (hinv : IsUnit (Eᵀ * E).det) :
    a0 = (Eᵀ * E)⁻¹.mulVec (Eᵀ.mulVec y) := by
  have hne := minimizer_normal_eq E y a0 hmin
  rw [Matrix.mulVec_sub, sub_eq_zero] at hne
  have h1 : (Eᵀ * E).mulVec a0 = Eᵀ.mulVec y := by
    rw [← Matrix.mulVec_mulVec]
    exact hne
  calc a0 = (1 : Matrix (Fin p) (Fin p) ℚ).mulVec a0 := by rw [Matrix.one_mulVec]
    _ = ((Eᵀ * E)⁻¹ * (Eᵀ * E)).mulVec a0 := by rw [Matrix.nonsing_inv_mul _ hinv]
    _ = (Eᵀ * E)⁻¹.mulVec ((Eᵀ * E).mulVec a0) := by rw [← Matrix.mulVec_mulVec]
    _ = (Eᵀ * E)⁻¹.mulVec (Eᵀ.mulVec y) := by rw [h1]

theorem negEye_mulVec {p : ℕ} (x : Fin p → ℚ) (j : Fin p) :
    (negEye p).mulVec x j = -x j := by
  simp [negEye, Matrix.mulVec, Matrix.dotProduct, ite_mul, Finset.sum_ite_eq]

theorem onesRow_mulVec {p : ℕ} (x : Fin p → ℚ) (i : Fin 1) :
    (onesRow p).mulVec x i = ∑ j, x j := by
  simp [onesRow, Matrix.mulVec, Matrix.dotProduct]

theorem qvec_eq (E : RefMatrix) (y : Fin E.bands → ℚ) :
    FCLSU.qvec E y = -(E.Mᵀ.mulVec y) := by
  funext j
  simp [FCLSU.qvec, FCLSU.rT, rowVec, Matrix.mul_apply, Matrix.mulVec, Matrix.dotProduct,
    Matrix.transpose_apply, Matrix.neg_apply, mul_comm]

theorem negEye_eq_neg_one (p : ℕ) : negEye p = -(1 : Matrix (Fin p) (Fin p) ℚ) := by
  ext i j
  by_cases h : i = j <;> simp [negEye, Matrix.one_apply, h]

theorem uniformQP_feasible : QPApproxFeasible (1/1000000) uniformQP := by
  intro p hp Q q
  constructor
  · intro j
    rw [negEye_mulVec]
    simp only [uniformQP, zeroVec]
    have hple : (0:ℚ) < (p:ℚ)⁻¹ := by
      have hc : (0:ℚ) < (p:ℚ) := by exact_mod_cast hp
      positivity
    linarith
  · intro i
    rw [onesRow_mulVec]
    simp only [uniformQP, onesVec1]
    rw [Finset.sum_const, Finset.card_univ, Fintype.card_fin, nsmul_eq_mul,
      mul_inv_cancel₀ (by exact_mod_cast hp.ne' : (p:ℚ) ≠ 0)]
    norm_num

theorem pickCore_minimizer (i : ℕ) :
    IsLSMinimizer refW2.M (fun b => (LeastSquares.normalize imgW2).pix (b : ℕ) i)
      (pickCore refW2.bands refW2.p refW2.M
        fun b => (LeastSquares.normalize imgW2).pix (b : ℕ) i) := by
  intro a
  simp only [resSq, Matrix.mulVec, Matrix.dotProduct, RefMatrix.M, refW2, pickCore,
    Matrix.of_apply, Fin.sum_univ_one, Fin.isValue, Pi.sub_apply]
  norm_num
  exact mul_self_nonneg _

theorem refW2_det : IsUnit (refW2.Mᵀ * refW2.M).det := by
  have h : (refW2.Mᵀ * refW2.M).det = 1 := by
    rw [Matrix.det_fin_one, Matrix.mul_apply]
    norm_num [RefMatrix.M, refW2, Matrix.transpose_apply, Fin.sum_univ_one]
  rw [h]
  exact isUnit_one

theorem arr01_energy : arr01.centeredEnergy ≠ 0 := by
  norm_num [NDArray.centeredEnergy, indicesOf, NDArray.amean, NDArray.asum,
    NDArray.cells, NDArray.size, arr01, List.range_succ]

/- ===================================================================
   Claim theorems.
   =================================================================== -/

/-- Claim C4 (counterexample): the claimed binning (half-open intervals
[400,500) and [500,600), putting the samples at 400 and 450 into bin 0
and those at 500 and 550 into bin 1) disagrees with what the code
computes on the concrete spectrum with intensities 1,2,3,4 at
wavelengths 400,450,500,550: `groupby_bins` uses left-open right-closed
intervals, so 400 is dropped, 450 and 500 land in bin 0 and 550 in
bin 1, and after min–max normalization the two results differ. -/
theorem claim_C4_counterexample :
    FPRefMatrixSpec.createColumn [400, 500, 600] [(400, 1), (450, 2), (500, 3), (550, 4)]
      = [some 0, some 1] ∧
    FPRefMatrix.createColumn [400, 500, 600] [(400, 1), (450, 2), (500, 3), (550, 4)]
      = [some 1, some 0] ∧
    FPRefMatrix.createColumn [400, 500, 600] [(400, 1), (450, 2), (500, 3), (550, 4)]
      ≠ FPRefMatrixSpec.createColumn [400, 500, 600] [(400, 1), (450, 2), (500, 3), (550, 4)] := by
  have h1 : FPRefMatrixSpec.createColumn [400, 500, 600]
      [(400, 1), (450, 2), (500, 3), (550, 4)] = [some 0, some 1] := by
    norm_num [FPRefMatrixSpec.createColumn, FPRefMatrix.normalize, FPRefMatrix.fillNaNs,
      specSampleInBin, listMin, listMax, safeDiv, List.range_succ, List.filter, List.sum]
  have h2 : FPRefMatrix.createColumn [400, 500, 600]
      [(400, 1), (450, 2), (500, 3), (550, 4)] = [some 1, some 0] := by
    norm_num [FPRefMatrix.createColumn, FPRefMatrix.normalize, FPRefMatrix.fillNaNs,
      FPRefMatrix.binSpectrum, sampleInBin, listMin, listMax, safeDiv,
      List.range_succ, List.filter, List.sum]
  refine ⟨h1, h2, ?_⟩
  rw [h1, h2]
  norm_num

/-- Claim C4 (amended): with bin edges [400,500,600], `groupby_bins`
bins by the left-open right-closed intervals (400,500] and (500,600]:
the sample at 400 falls in no bin and is dropped, the samples at 450
and 500 are summed into bin 0 and the sample at 550 goes to bin 1; the
resulting two-bin vector is then min–max normalized to [0,1]. -/
theorem claim_C4_amended (a b c d : ℚ) :
    FPRefMatrix.createColumn [400, 500, 600] [(400, a), (450, b), (500, c), (550, d)] =
      FPRefMatrix.normalize [b + c, d] := by
  have h : FPRefMatrix.fillNaNs (FPRefMatrix.binSpectrum [400, 500, 600]
      [(400, a), (450, b), (500, c), (550, d)]) = [b + c, d] := by
    norm_num [FPRefMatrix.fillNaNs, FPRefMatrix.binSpectrum, sampleInBin,
      List.range_succ, List.filter, List.sum]
  rw [FPRefMatrix.createColumn, h]

/-- Claim C6 (code evaluation at the failing input): on a spectrum whose
binned vector is the constant [5,5], `FPRefMatrix.create` does not fail;
`_normalize` silently divides by max - min = 0 and the returned column
consists of NaN entries (modelled as `none`). -/
theorem claim_C6_nan_not_error :
    FPRefMatrix.create [400, 500, 600] [[(450, 5), (550, 5)]] = [[none, none]] := by
  norm_num [FPRefMatrix.create, FPRefMatrix.createColumn, FPRefMatrix.normalize,
    FPRefMatrix.fillNaNs, FPRefMatrix.binSpectrum, sampleInBin, listMin, listMax,
    safeDiv, List.range_succ, List.filter, List.sum]

/-- Claim C5 (code evaluation at the failing input): for gt of shape
(2,2) and pred of shape (2,), the shapes differ but are broadcastable,
and all four metrics return a value instead of failing with a
shape-mismatch error. -/
theorem claim_C5_broadcast_no_error :
    gtC5.shape ≠ predC5.shape ∧
    ∀ log10 sqrtF : ℚ → ℚ,
      (PixelWiseMSE gtC5 predC5).isOk ∧ (PixelWiseMAE gtC5 predC5).isOk ∧
      (PSNR log10 gtC5 predC5 none).isOk ∧
      (RangeInvariantPSNR log10 sqrtF gtC5 predC5).isOk := by
  constructor
  · decide
  · intro log10 sqrtF
    exact ⟨rfl, rfl, rfl, rfl⟩

/-- Claim C8: for same-shaped non-constant arrays and any k > 0 and c,
`RangeInvariantPSNR(gt, k*pred + c) = RangeInvariantPSNR(gt, pred)` —
the metric is invariant under global affine rescaling of the
prediction (for every interpretation of log10 and sqrt). -/
theorem claim_C8_scale_invariance (log10 sqrtF : ℚ → ℚ) (gt pred : NDArray) (k c : ℚ)
    (hshape : pred.shape = gt.shape) (hk : 0 < k)
    (hgt : gt.centeredEnergy ≠ 0) (hpred : pred.centeredEnergy ≠ 0) :
    RangeInvariantPSNR log10 sqrtF gt (pred.amap fun t => k * t + c)
      = RangeInvariantPSNR log10 sqrtF gt pred := by
  unfold RangeInvariantPSNR
  simp only [ewise_scalar_right, exc_bind_ok]
  rw [fix_range_affine _ pred k c (ne_of_gt hk) (size_ne_zero_of_centeredEnergy hpred)]

/-- Witness for claim C8 at gt = pred = the (0,1) array of shape (2),
k = 2, c = 3, with log10 and sqrt interpreted as the identity. -/
theorem claim_C8_witness :
    arr01.shape = arr01.shape ∧ (0:ℚ) < 2 ∧ arr01.centeredEnergy ≠ 0 ∧
    RangeInvariantPSNR id id arr01 (arr01.amap fun t => 2 * t + 3)
      = RangeInvariantPSNR id id arr01 arr01 :=
  ⟨rfl, by norm_num, arr01_energy,
    claim_C8_scale_invariance id id arr01 arr01 2 3 rfl (by norm_num) arr01_energy arr01_energy⟩

/-- Claim C1: whenever the QP solver honors its contract of returning a
point feasible for the passed nonnegativity and sum-to-one constraints
within 1e-6, every pixel column of `FCLSU.solve`'s abundance map sums
to 1 within 1e-6 and every entry (hence the minimum entry) is at least
-1e-6. -/
theorem claim_C1_constraint_satisfaction (qp : QPSolver)
    (hqp : QPApproxFeasible (1/1000000) qp)
    (img : MixedImage) (E : RefMatrix) (hb : img.bands = E.bands) (hp : 0 < E.p)
    (A : AbundanceMap) (hA : FCLSU.solve qp img E = .ok A) (i : ℕ) :
    |(∑ j : Fin E.p, A.col i (j : ℕ)) - 1| ≤ 1/1000000 ∧
    ∀ j : Fin E.p, -(1/1000000) ≤ A.col i (j : ℕ) := by
  rw [FCLSU.solve, if_pos hb] at hA
  obtain rfl : _ = A := (Except.ok.injEq _ _).mp hA
  obtain ⟨h1, h2⟩ := hqp E.p hp (E.Mᵀ * E.M) (FCLSU.qvec E (FCLSU.pixelY img E.bands i))
  have hcol : ∀ j : Fin E.p, AbundanceMap.col
      ⟨E.p, img.spatialDims, fun i j => if h : j < E.p then
        FCLSU.pixelSol qp E (FCLSU.pixelY img E.bands i) ⟨j, h⟩ else 0⟩ i (j : ℕ)
      = FCLSU.pixelSol qp E (FCLSU.pixelY img E.bands i) j := by
    intro j
    show (if h : (j : ℕ) < E.p then
      FCLSU.pixelSol qp E (FCLSU.pixelY img E.bands i) ⟨(j : ℕ), h⟩ else 0) = _
    rw [dif_pos j.isLt]
  constructor
  · have hsum := h2 0
    rw [onesRow_mulVec] at hsum
    simp only [onesVec1] at hsum
    rw [show (∑ j : Fin E.p, AbundanceMap.col
        ⟨E.p, img.spatialDims, fun i j => if h : j < E.p then
          FCLSU.pixelSol qp E (FCLSU.pixelY img E.bands i) ⟨j, h⟩ else 0⟩ i (j : ℕ))
        = ∑ j : Fin E.p, FCLSU.pixelSol qp E (FCLSU.pixelY img E.bands i) j from
      Finset.sum_congr rfl fun j _ => hcol j]
    exact hsum
  · intro j
    have hge := h1 j
    rw [negEye_mulVec] at hge
    simp only [zeroVec] at hge
    have hge2 : -(FCLSU.pixelSol qp E (FCLSU.pixelY img E.bands i) j) ≤ 0 + 1/1000000 := hge
    rw [hcol j]
    linarith

/-- Witness for claim C1: the uniform-point QP solver on a 3-band,
2-endmember, 1-pixel instance. -/
theorem claim_C1_witness :
    QPApproxFeasible (1/1000000) uniformQP ∧ imgW.bands = refW.bands ∧ 0 < refW.p ∧
    (|(∑ j : Fin refW.p, AW1.col 0 (j : ℕ)) - 1| ≤ 1/1000000 ∧
      ∀ j : Fin refW.p, -(1/1000000) ≤ AW1.col 0 (j : ℕ)) :=
  ⟨uniformQP_feasible, rfl, by decide,
    claim_C1_constraint_satisfaction uniformQP uniformQP_feasible imgW refW rfl
      (by decide) AW1 rfl 0⟩

/-- Claim C3: for every pixel, the column of `FCLSU.solve`'s output is
the QP solver's answer on the quadratic term Q = EᵀE (the same matrix
for every pixel), the per-pixel linear term r = -Eᵀy, the inequality
constraint matrix -I (the negative p×p identity) with zero right-hand
side, and the all-ones 1×p equality row with right-hand side 1. -/
theorem claim_C3_qp_arguments (qp : QPSolver) (img : MixedImage) (E : RefMatrix)
    (hb : img.bands = E.bands) (A : AbundanceMap)
    (hA : FCLSU.solve qp img E = .ok A) (i : ℕ) (j : Fin E.p) :
    A.col i (j : ℕ) =
      qp E.p (E.Mᵀ * E.M) (-(E.Mᵀ.mulVec (FCLSU.pixelY img E.bands i)))
        (-(1 : Matrix (Fin E.p) (Fin E.p) ℚ)) 0 (Matrix.of fun _ _ => (1:ℚ))
        (fun _ => (1:ℚ)) j := by
  rw [FCLSU.solve, if_pos hb] at hA
  obtain rfl : _ = A := (Except.ok.injEq _ _).mp hA
  obtain ⟨jv, hjv⟩ := j
  show (if h : jv < E.p then
    FCLSU.pixelSol qp E (FCLSU.pixelY img E.bands i) ⟨jv, h⟩ else 0) = _
  rw [dif_pos hjv, FCLSU.pixelSol, qvec_eq, negEye_eq_neg_one]
  rfl

/-- Witness for claim C3 at the zero QP solver on a 3-band, 2-endmember
instance. -/
theorem claim_C3_witness :
    imgW.bands = refW.bands ∧
    AWzero.col 0 ((⟨0, by decide⟩ : Fin refW.p) : ℕ) =
      zeroQP refW.p (refW.Mᵀ * refW.M)
        (-(refW.Mᵀ.mulVec (FCLSU.pixelY imgW refW.bands 0)))
        (-(1 : Matrix (Fin refW.p) (Fin refW.p) ℚ)) 0 (Matrix.of fun _ _ => (1:ℚ))
        (fun _ => (1:ℚ)) ⟨0, by decide⟩ :=
  ⟨rfl, claim_C3_qp_arguments zeroQP imgW refW rfl AWzero rfl 0 ⟨0, by decide⟩⟩

/-- Claim C10: `FCLSU.solve` applies no renormalization to the mixed
image: each pixel column of its output is the QP answer whose linear
term is computed from the raw image values img.pix themselves
(-Σ_b E[b,j]·Y[b,pixel], the column of the image after unrolling
only). -/
theorem claim_C10_no_renormalization (qp : QPSolver) (img : MixedImage) (E : RefMatrix)
    (hb : img.bands = E.bands) (A : AbundanceMap)
    (hA : FCLSU.solve qp img E = .ok A) (i : ℕ) (j : Fin E.p) :
    A.col i (j : ℕ) =
      qp E.p (E.Mᵀ * E.M)
        (fun j2 => -(∑ b : Fin E.bands, E.val (b : ℕ) (j2 : ℕ) * img.pix (b : ℕ) i))
        (negEye E.p) (zeroVec E.p) (onesRow E.p) onesVec1 j := by
  rw [FCLSU.solve, if_pos hb] at hA
  obtain rfl : _ = A := (Except.ok.injEq _ _).mp hA
  obtain ⟨jv, hjv⟩ := j
  show (if h : jv < E.p then
    FCLSU.pixelSol qp E (FCLSU.pixelY img E.bands i) ⟨jv, h⟩ else 0) = _
  rw [dif_pos hjv, FCLSU.pixelSol]
  have hq : FCLSU.qvec E (FCLSU.pixelY img E.bands i)
      = fun j2 : Fin E.p =>
          -(∑ b : Fin E.bands, E.val (b : ℕ) (j2 : ℕ) * img.pix (b : ℕ) i) := by
    funext j2
    simp [FCLSU.qvec, FCLSU.rT, rowVec, Matrix.mul_apply, FCLSU.pixelY,
      RefMatrix.M, Matrix.transpose_apply, Matrix.neg_apply, mul_comm]
  rw [hq]

/-- Witness for claim C10 at the uniform QP solver on a 3-band,
2-endmember instance. -/
theorem claim_C10_witness :
    imgW.bands = refW.bands ∧
    AW1.col 0 ((⟨1, by decide⟩ : Fin refW.p) : ℕ) =
      uniformQP refW.p (refW.Mᵀ * refW.M)
        (fun j2 => -(∑ b : Fin refW.bands, refW.val (b : ℕ) (j2 : ℕ) * imgW.pix (b : ℕ) 0))
        (negEye refW.p) (zeroVec refW.p) (onesRow refW.p) onesVec1 ⟨1, by decide⟩ :=
  ⟨rfl, claim_C10_no_renormalization uniformQP imgW refW rfl AW1 rfl 0 ⟨1, by decide⟩⟩

/-- Claim C7: with a band-count mismatch between the image and the
reference matrix (and a nonempty image, so that numpy does not fail
earlier for an unrelated reason), `FCLSU.solve` fails on its assert and
`LeastSquares.solve` fails inside scipy's `lstsq` shape check; neither
produces an abundance map. -/
theorem claim_C7_shape_mismatch (qp : QPSolver) (core : LSCore)
    (img : MixedImage) (E : RefMatrix)
    (hb : img.bands ≠ E.bands) (hpix : 0 < img.numPix) (hbands : 0 < img.bands) :
    FCLSU.solve qp img E = .error .shapeMismatch ∧
    LeastSquares.solve core img E = .error .shapeMismatch := by
  constructor
  · rw [FCLSU.solve, if_neg hb]
  · rw [LeastSquares.solve,
      if_neg (show ¬(img.bands = 0 ∨ img.numPix = 0) by omega),
      if_neg (show ¬((LeastSquares.normalize img).bands = E.bands) from hb)]

/-- Witness for claim C7: a 2-band 3-pixel image against a 4-band
reference matrix. -/
theorem claim_C7_witness :
    img7.bands ≠ ref7.bands ∧ 0 < img7.numPix ∧ 0 < img7.bands ∧
    (FCLSU.solve zeroQP img7 ref7 = .error .shapeMismatch ∧
      LeastSquares.solve pickCore img7 ref7 = .error .shapeMismatch) :=
  ⟨by decide, by decide, by decide,
    claim_C7_shape_mismatch zeroQP pickCore img7 ref7 (by decide) (by decide) (by decide)⟩

/-- Claim C9: with matching band counts, a nonempty image (at least one
band and one pixel, without which `LeastSquares._normalize` raises
numpy's zero-size-reduction error instead of returning), and 2 or 3
spatial dimensions, both solvers return an abundance map whose
endmember count is p and whose spatial dimensions equal the input
image's (the solvers carry the spatial shape generically, without
hardcoding its length). -/
theorem claim_C9_output_shape (qp : QPSolver) (core : LSCore)
    (img : MixedImage) (E : RefMatrix) (hb : img.bands = E.bands)
    (hpix : 0 < img.numPix) (hbands : 0 < img.bands)
    (hdim : img.spatialDims.length = 2 ∨ img.spatialDims.length = 3) :
    (∃ A, FCLSU.solve qp img E = .ok A ∧ A.p = E.p ∧ A.spatialDims = img.spatialDims) ∧
    (∃ A, LeastSquares.solve core img E = .ok A ∧ A.p = E.p ∧
      A.spatialDims = img.spatialDims) := by
  constructor
  · exact ⟨_, by rw [FCLSU.solve, if_pos hb], rfl, rfl⟩
  · exact ⟨_, by
      rw [LeastSquares.solve,
        if_neg (show ¬(img.bands = 0 ∨ img.numPix = 0) by omega),
        if_pos (show (LeastSquares.normalize img).bands = E.bands from hb)], rfl, rfl⟩

/-- Witness for claim C9: a 2-band image with spatial shape (4,5) and a
2-band, 3-endmember reference matrix. -/
theorem claim_C9_witness :
    img9.bands = ref9.bands ∧ 0 < img9.numPix ∧ 0 < img9.bands ∧
    (img9.spatialDims.length = 2 ∨ img9.spatialDims.length = 3) ∧
    ((∃ A, FCLSU.solve zeroQP img9 ref9 = .ok A ∧ A.p = ref9.p ∧
        A.spatialDims = img9.spatialDims) ∧
      (∃ A, LeastSquares.solve pickCore img9 ref9 = .ok A ∧ A.p = ref9.p ∧
        A.spatialDims = img9.spatialDims)) :=
  ⟨rfl, by decide, by decide, Or.inl rfl,
    claim_C9_output_shape zeroQP pickCore img9 ref9 rfl (by decide) (by decide)
      (Or.inl rfl)⟩

/-- Claim C2: when the least-squares core honors scipy's contract of
returning a residual minimizer, and EᵀE is invertible (full column
rank), each pixel column returned by `LeastSquares.solve` equals the
closed-form solution (EᵀE)⁻¹Eᵀy for y the pixel of the min–max
normalized image (the solver normalizes the image over its global min
and max before fitting). -/
theorem claim_C2_unconstrained_exactness (core : LSCore) (img0 : MixedImage)
    (E : RefMatrix) (hb : img0.bands = E.bands)
    (hcore : ∀ i : ℕ, IsLSMinimizer E.M
        (fun b => (LeastSquares.normalize img0).pix (b : ℕ) i)
        (core E.bands E.p E.M fun b => (LeastSquares.normalize img0).pix (b : ℕ) i))
    (hinv : IsUnit (E.Mᵀ * E.M).det)
    (A : AbundanceMap) (hA : LeastSquares.solve core img0 E = .ok A)
    (i : ℕ) (j : Fin E.p) :
    A.col i (j : ℕ) =
      (E.Mᵀ * E.M)⁻¹.mulVec
        (E.Mᵀ.mulVec fun b => (LeastSquares.normalize img0).pix (b : ℕ) i) j := by
  rw [LeastSquares.solve] at hA
  by_cases hz : img0.bands = 0 ∨ img0.numPix = 0
  · rw [if_pos hz] at hA
    exact Except.noConfusion hA
  · rw [if_neg hz,
      if_pos (show (LeastSquares.normalize img0).bands = E.bands from hb)] at hA
    obtain rfl : _ = A := (Except.ok.injEq _ _).mp hA
    obtain ⟨jv, hjv⟩ := j
    show (if h : jv < E.p then
      core E.bands E.p E.M (fun b => (LeastSquares.normalize img0).pix (b : ℕ) i) ⟨jv, h⟩
      else 0) = _
    rw [dif_pos hjv]
    exact congrFun (ls_minimizer_closed_form E.M _ _ (hcore i) hinv) ⟨jv, hjv⟩

/-- Witness for claim C2: a 1-band, 1-endmember, 2-pixel instance whose
least-squares core returns the exact minimizer. -/
theorem claim_C2_witness :
    imgW2.bands = refW2.bands ∧
    (∀ i : ℕ, IsLSMinimizer refW2.M
        (fun b => (LeastSquares.normalize imgW2).pix (b : ℕ) i)
        (pickCore refW2.bands refW2.p refW2.M
          fun b => (LeastSquares.normalize imgW2).pix (b : ℕ) i)) ∧
    IsUnit (refW2.Mᵀ * refW2.M).det ∧
    ∀ j : Fin refW2.p, AW2.col 0 (j : ℕ) =
      (refW2.Mᵀ * refW2.M)⁻¹.mulVec
        (refW2.Mᵀ.mulVec fun b => (LeastSquares.normalize imgW2).pix (b : ℕ) 0) j :=
  ⟨rfl, pickCore_minimizer, refW2_det, fun j =>
    claim_C2_unconstrained_exactness pickCore imgW2 refW2 rfl pickCore_minimizer
      refW2_det AW2 rfl 0 j⟩

/-- Witness for the amended claim C4 at the concrete intensities
1, 2, 3, 4. -/
theorem claim_C4_witness :
    FPRefMatrix.createColumn [400, 500, 600] [(400, 1), (450, 2), (500, 3), (550, 4)] =
      FPRefMatrix.normalize [2 + 3, 4] :=
  claim_C4_amended 1 2 3 4
